import Mathlib

/-!
Verification of the `mkt` template engine (`mkt.py`) against its design
specification.  Strings are modelled as `List Char`; every parser-level
function below is a direct translation of the corresponding Python
function, including its quirks (index arithmetic, early returns, and the
exact loop structure).  `while` loops are rendered as fueled recursions;
the fuel passed at each call site strictly dominates the number of
iterations the Python loop can perform, so the fuel-exhaustion branch is
never taken on the arguments the program uses.
-/

namespace Mkt

/-- Characters Python's `str.isspace` recognises (ASCII range, as in the
CPython 2 implementation used by `line[0].isspace()` and `str.strip()`). -/
def isPySpace (c : Char) : Bool :=
  c = ' ' ∨ c = '\t' ∨ c = '\n' ∨ c = '\r' ∨ c = '\x0b' ∨ c = '\x0c'

/-- `TemplateParser.ESCAPABLE = "\t\n\v\r #(:=>\\"`. -/
def ESCAPABLE : List Char := ['\t', '\n', '\x0b', '\r', ' ', '#', '(', ':', '=', '>', '\\']

/-- `TemplateParser.RESERVED = "\t\n\v\r #(),:=>\\"`. -/
def RESERVED : List Char := ['\t', '\n', '\x0b', '\r', ' ', '#', '(', ')', ',', ':', '=', '>', '\\']

/-- Default `to_strip` of `strip_unescaped`: `"\t\n\v\r "`. -/
def defaultToStrip : List Char := ['\t', '\n', '\x0b', '\r', ' ']

/-- Python slice `s[a:b]` for non-negative bounds. -/
def pySlice (s : List Char) (a b : Nat) : List Char := (s.take b).drop a

/-- First index `k ≥ start` (scanning upward, at most `fuel` candidates)
with `p k`; used to model Python's `str.find`. -/
def scanFirst (p : Nat → Bool) (start fuel : Nat) : Option Nat :=
  match fuel with
  | 0 => none
  | fuel + 1 => if p start then some start else scanFirst p (start + 1) fuel

/-- Python `haystack.find(sub, start, stop)`: least `k ≥ start` such that
`sub` occurs at `k` entirely inside `haystack[start:stop]`, else `-1`. -/
def pyFind (sub hay : List Char) (start stop : Nat) : Int :=
  let limit := Nat.min stop hay.length
  match scanFirst (fun k => decide (k + sub.length ≤ limit) && sub.isPrefixOf (hay.drop k))
      start (limit + 1 - start) with
  | some k => (k : Int)
  | none => -1

/-- `TemplateParser.escape`: walking the character list from right to left,
a `\` is inserted before every `ESCAPABLE` character; this is exactly a
right fold. -/
def escape (line : List Char) : List Char :=
  if line = [] then line
  else line.foldr (fun c acc => if c ∈ ESCAPABLE then '\\' :: c :: acc else c :: acc) []

/-- Body of the `while` loop of `TemplateParser.unescape`: at position `i`
a `\` followed by an `ESCAPABLE` character is deleted and `i` is left
unchanged (so the freshly exposed character is examined again), otherwise
`i` advances. -/
def unescapeGo : List Char → List Char
  | a :: b :: rest =>
    if a = '\\' ∧ b ∈ ESCAPABLE then unescapeGo (b :: rest)
    else a :: unescapeGo (b :: rest)
  | l => l

/-- `TemplateParser.unescape` (with its `len(line) < 2` early return). -/
def unescape (line : List Char) : List Char :=
  if line.length < 2 then line else unescapeGo line

/-- The `while index > -1` loop of `TemplateParser.find_unescaped`.
`escaped_index` is recomputed from `start` on every iteration, exactly as
in the source. -/
def fuLoop (needle escaped_needle hay : List Char) (start : Nat) (offset : Nat)
    (index : Int) (fuel : Nat) : Int :=
  match fuel with
  | 0 => index
  | fuel + 1 =>
    if index > -1 then
      let escaped_index := pyFind escaped_needle hay start hay.length
      if escaped_index = -1 ∨ ¬ (index = escaped_index + (offset : Int)) then index
      else fuLoop needle escaped_needle hay start offset
        (pyFind needle hay (index.toNat + needle.length) start) fuel
    else index

/-- `TemplateParser.find_unescaped(needle, haystack, start)`.  The Python
locals are inlined (`escaped_needle = escape(needle)`,
`index = haystack.find(needle, start)`,
`offset = len(escape(needle[0])) - 1`); all are pure. -/
def find_unescaped (needle hay : List Char) (start : Nat) : Int :=
  match needle with
  | [] => 0
  | c :: _ =>
    if (escape [c]).length - 1 = 0 then pyFind needle hay start hay.length
    else fuLoop needle (escape needle) hay start ((escape [c]).length - 1)
      (pyFind needle hay start hay.length) (hay.length + 2)

/-- Error taxonomy: Python exception classes raised by the program. -/
inductive PErr where
  | valueError (msg : String)
  | syntaxError (msg : String)
  | osError (msg : String)
deriving DecidableEq, Repr

/-- The index-collection `while` loop of `TemplateParser.split_unescaped`:
`indices[-1]` is `indices.getLastD (-1)` (the list is never empty). -/
def suLoop (needle hay : List Char) (nsplits : Int) (indices : List Int) (fuel : Nat) :
    List Int :=
  match fuel with
  | 0 => indices
  | fuel + 1 =>
    if ¬ ((indices.length : Int) = nsplits) ∧ ¬ (indices.getLastD (-1) = -1) then
      suLoop needle hay nsplits
        (indices ++ [find_unescaped needle hay
          ((indices.getLastD (-1)) + (needle.length : Int)).toNat]) fuel
    else indices

/-- The field-building `for i in indices` loop of `split_unescaped`
(`split.append(haystack[start:i]); start = i + len(needle)`). -/
def suFields (needle hay : List Char) (indices : List Int) (start : Nat) :
    List (List Char) :=
  match indices with
  | [] => []
  | i :: rest => pySlice hay start i.toNat :: suFields needle hay rest (i.toNat + needle.length)

/-- `TemplateParser.split_unescaped(needle, haystack, nsplits)`; raises
`ValueError("not enough splits")` when `nsplits` is non-negative and the
number of found unescaped occurrences differs from it. -/
def split_unescaped (needle hay : List Char) (nsplits : Int) :
    Except PErr (List (List Char)) :=
  let indices0 := suLoop needle hay nsplits [find_unescaped needle hay 0] (hay.length + 2)
  let indices := if indices0.getLast? = some (-1) then indices0.dropLast else indices0
  if nsplits ≥ 0 ∧ ¬ ((indices.length : Int) = nsplits) then
    .error (.valueError "not enough splits")
  else if indices = [] then .ok [hay]
  else .ok (suFields needle hay indices 0 ++
    [hay.drop ((indices.getLastD (-1)) + (needle.length : Int)).toNat])

/-- The first `for i in range(1, len(string))` loop of `strip_unescaped`. -/
def stripFront (s to_strip : List Char) (i acc fuel : Nat) : Nat :=
  match fuel with
  | 0 => acc
  | fuel + 1 =>
    if i < s.length then
      if s.getD (i - 1) ' ' = '\\' ∨ ¬ (s.getD i ' ' ∈ to_strip) then acc
      else stripFront s to_strip (i + 1) (acc + 1) fuel
    else acc

/-- The second, descending `for i in range(len(string) - 2, front_offset + 1, -1)`
loop of `strip_unescaped`. -/
def stripBack (s to_strip : List Char) (front : Nat) (i : Int) (acc fuel : Nat) : Nat :=
  match fuel with
  | 0 => acc
  | fuel + 1 =>
    if i ≥ (front : Int) + 2 then
      if s.getD i.toNat ' ' = '\\' ∨ ¬ (s.getD (i.toNat + 1) ' ' ∈ to_strip) then acc
      else stripBack s to_strip front (i - 1) (acc + 1) fuel
    else acc

/-- `TemplateParser.strip_unescaped(string, to_strip)`.  Note the
`len(string) < 2` early return, the plain `lstrip`, and the comparison of
`front_offset` against `len(set(to_strip)) - 1`. -/
def strip_unescaped (string to_strip : List Char) : List Char :=
  if string.length < 2 then string
  else
    let s := string.dropWhile (fun c => to_strip.contains c)
    let front := stripFront s to_strip 1 0 s.length
    if front = to_strip.dedup.length - 1 then s.drop front
    else
      let back := stripBack s to_strip front ((s.length : Int) - 2) 0 s.length
      pySlice s front (s.length - back)

/-- The macro table.  Python's `dict` is modelled as an association list to
which `dict.update` appends and in which lookup takes the latest binding. -/
abbrev Macros := List (List Char × List Char)

/-- `macro in macros` / `macros[macro]`: the latest binding for a key wins,
matching Python `dict` semantics under repeated `update`. -/
def lookupMacro (m : Macros) (key : List Char) : Option (List Char) :=
  m.foldl (fun acc p => if p.1 = key then some p.2 else acc) none

/-- Python `str.strip()` with no argument (used on candidate macro names):
drop whitespace from both ends. -/
def pyStrip (s : List Char) : List Char :=
  ((s.dropWhile isPySpace).reverse.dropWhile isPySpace).reverse

/-- `TemplateParser.Preprocessor.uncomment`. -/
def uncomment (line : List Char) : List Char :=
  let comment_index := find_unescaped ['#'] line 0
  if comment_index > -1 then line.take comment_index.toNat else line

/-- `TemplateParser.Preprocessor.extract_macro`: a singleton or empty
table.  The wildcard branch is the `ValueError` caught by the source's
`try`/`except` (a failed strict split or tuple unpacking). -/
def extractMacroDef (line : List Char) : List (List Char × List Char) :=
  match split_unescaped ['='] line 1 with
  | .error _ => []
  | .ok [m, d] => [(m, d)]
  | .ok _ => []

/-- The `while start > -1` loop of
`TemplateParser.Preprocessor.expand_macros`; returns the accumulated
`components` and `last_end`.  Note that the closing parenthesis is located
with a plain `line.find(')', start + 1)`, not escape-aware. -/
def emLoop (line : List Char) (macros : Macros) (components : List (List Char))
    (last_end start : Int) (fuel : Nat) : List (List Char) × Int :=
  match fuel with
  | 0 => (components, last_end)
  | fuel + 1 =>
    if start > -1 then
      let endi := pyFind [')'] line (start.toNat + 1) line.length
      if endi = -1 then (components, last_end)
      else
        let mname := pyStrip (pySlice line (start.toNat + 1) endi.toNat)
        match lookupMacro macros mname with
        | some defn =>
          emLoop line macros
            (components ++ [pySlice line (last_end + 1).toNat start.toNat, defn])
            endi (find_unescaped ['('] line (start.toNat + 1)) fuel
        | none =>
          emLoop line macros components last_end
            (find_unescaped ['('] line (start.toNat + 1)) fuel
    else (components, last_end)

/-- `TemplateParser.Preprocessor.expand_macros(line, macros)`. -/
def expand_macros (line : List Char) (macros : Macros) : List Char :=
  let (components, last_end) :=
    emLoop line macros [] (-1) (find_unescaped ['('] line 0) (line.length + 2)
  (components ++ [line.drop (last_end + 1).toNat]).flatten

/-- First pass of `Preprocessor.preprocess`: uncomment each line, record
macro definitions (`dict.update` = append to `Macros`), and blank out
definition lines. -/
def pass1 (lines : List (List Char)) (macros : Macros) : List (List Char) × Macros :=
  match lines with
  | [] => ([], macros)
  | l :: ls =>
    let u := uncomment l
    let md := extractMacroDef u
    if md = [] then
      let r := pass1 ls macros
      (u :: r.1, r.2)
    else
      let r := pass1 ls (macros ++ md)
      ([] :: r.1, r.2)

/-- `TemplateParser.Preprocessor.preprocess(lines)`: the two strict passes
(the macro table is complete before any expansion happens). -/
def preprocess (lines : List (List Char)) : List (List Char) :=
  if lines = [] then lines
  else
    let r := pass1 lines []
    r.1.map (fun line => expand_macros line r.2)

/-- `TemplateOption`: `names` is built from `set(names)`; only membership
(`hasname`) is ever consulted, so a list model is adequate. -/
structure TemplateOption where
  names : List (List Char)
  script : List Char
deriving DecidableEq, Repr

/-- `TemplateOption.hasname`. -/
def TemplateOption.hasname (op : TemplateOption) (name : List Char) : Bool :=
  op.names.contains name

/-- `TemplatePath`. -/
structure TemplatePath where
  src : List Char
  dest : List Char
deriving DecidableEq, Repr

/-- `Template`. -/
structure Template where
  ops : List TemplateOption
  paths : List TemplatePath
deriving DecidableEq, Repr

/-- `normalize_component` from `TemplateParser.parse`. -/
def normalize_component (c : List Char) : List Char :=
  unescape (strip_unescaped c defaultToStrip)

/-- The inner script-collection `while` loop of `TemplateParser.parse`:
returns the collected raw script lines and the final value of `i`
(after the `i -= 1` of the break case).  Blank lines inside the block
are consumed but not appended, as in the source. -/
def collectScript (lines : List (List Char)) (i fuel : Nat) : List (List Char) × Nat :=
  match fuel with
  | 0 => ([], i)
  | fuel + 1 =>
    if h : i < lines.length then
      let line := lines.get ⟨i, h⟩
      if line = [] then collectScript lines (i + 1) fuel
      else if ¬ isPySpace line.headI then ([], i - 1)
      else
        let r := collectScript lines (i + 1) fuel
        (line :: r.1, r.2)
    else ([], i)

/-- Python `os.linesep.join` (POSIX). -/
def joinLines (ls : List (List Char)) : List Char := List.intercalate ['\n'] ls

/-- The outer `while i < len(lines)` loop of `TemplateParser.parse`. -/
def parseLoop (lines : List (List Char)) (i : Nat) (ops : List TemplateOption)
    (paths : List TemplatePath) (fuel : Nat) : Except PErr Template :=
  match fuel with
  | 0 => .ok ⟨ops, paths⟩
  | fuel + 1 =>
    if h : i < lines.length then
      let line := lines.get ⟨i, h⟩
      let stripped := strip_unescaped line defaultToStrip
      if stripped = [] then parseLoop lines (i + 1) ops paths fuel
      else if stripped.getLast? = some ':' then
        if stripped = [':'] then parseLoop lines (i + 1) ops paths fuel
        else
          match split_unescaped [','] stripped.dropLast (-1) with
          | .error e => .error e
          | .ok names =>
            let r := collectScript lines (i + 1) (lines.length + 1)
            parseLoop lines (r.2 + 1)
              (ops ++ [⟨names, joinLines (r.1.map normalize_component)⟩]) paths fuel
      else if stripped = ['>'] then parseLoop lines (i + 1) ops paths fuel
      else if stripped.head? = some '>' then
        .error (.syntaxError s!"no source in non-empty path (template line {i + 1})")
      else if find_unescaped ['>'] stripped 0 = -1 then
        let src := normalize_component stripped
        parseLoop lines (i + 1) ops (paths ++ [⟨src, src⟩]) fuel
      else
        match split_unescaped ['>'] stripped 1 with
        | .error e => .error e
        | .ok parts =>
          match parts.map normalize_component with
          | [s, d] =>
            parseLoop lines (i + 1) ops (paths ++ [⟨s, if d = [] then s else d⟩]) fuel
          | _ => .error (.valueError "wrong arity")
    else .ok ⟨ops, paths⟩

/-- `TemplateParser.parse(string)`: split into logical lines on the
(POSIX) line separator, preprocess, then classify. -/
def parse (string : List Char) : Except PErr Template :=
  match split_unescaped ['\n'] string (-1) with
  | .error e => .error e
  | .ok rawLines =>
    let lines := preprocess rawLines
    parseLoop lines 0 [] [] (lines.length + 1)

/-- `"cd \"%s\"" % wd`. -/
def cdLine (wd : List Char) : List Char := "cd \"".toList ++ wd ++ "\"".toList

/-- One step of the name loop of `Template.execute_options`.  Python's
`selected.union(set(op.names))` builds a new set and discards it — the
receiver is NOT mutated — so `selected` stays empty for the whole call;
the model keeps the variable and the membership test nonetheless. -/
def eoStep (ops : List TemplateOption) (acc : List (List Char) × List TemplateOption)
    (name : List Char) : List (List Char) × List TemplateOption :=
  match ops.find? (fun op => op.hasname name && ! acc.2.contains op) with
  | some op => (acc.1 ++ [op.script], acc.2)
  | none => acc

/-- The script list assembled by `Template.execute_options(names, wd)`
before it is joined and handed to `os.system` (the only observable of the
pure core). -/
def execute_options_script (ops : List TemplateOption) (names : List (List Char))
    (wd : List Char) : List (List Char) :=
  (names.foldl (eoStep ops) ([cdLine wd], [])).1

/-- Python `posixpath.join(a, b)`. -/
def pyJoin (a b : List Char) : List Char :=
  if b.head? = some '/' then b
  else if a = [] ∨ a.getLast? = some '/' then a ++ b
  else a ++ '/' :: b

/-- Python `str.split(c)` (all occurrences, empty fields kept). -/
def splitChar (c : Char) (s : List Char) : List (List Char) :=
  match s with
  | [] => [[]]
  | x :: rest =>
    let r := splitChar c rest
    if x = c then [] :: r
    else
      match r with
      | [] => [[x]]
      | h :: t => (x :: h) :: t

/-- Python `posixpath.normpath`. -/
def normpath (path : List Char) : List Char :=
  if path = [] then ['.']
  else
    let initial_slashes : Nat :=
      if path.head? = some '/' then
        if path.take 2 = ['/', '/'] ∧ ¬ (path.take 3 = ['/', '/', '/']) then 2 else 1
      else 0
    let new_comps := (splitChar '/' path).foldl (fun acc comp =>
      if comp = [] ∨ comp = ['.'] then acc
      else if ¬ (comp = ['.', '.']) ∨ (initial_slashes = 0 ∧ acc = [])
          ∨ (acc.getLast? = some ['.', '.']) then acc ++ [comp]
      else if ¬ (acc = []) then acc.dropLast
      else acc) []
    let p := List.replicate initial_slashes '/' ++ (List.intersperse ['/'] new_comps).flatten
    if p = [] then ['.'] else p

/-- Abstract filesystem oracle consumed by `Template.populate`
(`os.path.isdir`, `os.path.isfile`, `os.path.exists`, and whether two
files have equal SHA-256 content hashes). -/
structure FSModel where
  isdir : List Char → Bool
  isfile : List Char → Bool
  fsexists : List Char → Bool
  samehash : List Char → List Char → Bool

/-- The filesystem action `Template.populate` performs for one path. -/
inductive PopAction where
  | skip
  | copytree (sp dp : List Char)
  | copy (sp dp : List Char)
deriving DecidableEq, Repr

/-- The per-path body of the loop of `Template.populate(dest, src)`:
either skips, copies, or raises `OSError`.  (No other exception type
appears anywhere in `populate`.) -/
def populateStep (fs : FSModel) (dest src : List Char) (p : TemplatePath) :
    Except PErr PopAction :=
  let dp := pyJoin dest p.dest
  let sp := pyJoin src p.src
  if normpath dp = normpath sp then .ok .skip
  else if fs.isdir sp then
    if fs.fsexists dp ∧ ¬ fs.isdir dp then
      .error (.osError "incompatible changes (non-directory -> directory)")
    else .ok (.copytree sp dp)
  else if fs.isfile sp then
    if fs.fsexists dp then
      if ¬ fs.isfile dp then .error (.osError "incompatible changes (non-file -> file)")
      else if ¬ fs.samehash sp dp then .ok (.copy sp dp)
      else .ok .skip
    else .ok (.copy sp dp)
  else .error (.osError "resource isn't a file or a directory")

/-- `Template.populate` over all paths, stopping at the first raised
exception, listing the actions taken. -/
def populate (fs : FSModel) (dest src : List Char) (paths : List TemplatePath) :
    Except PErr (List PopAction) :=
  paths.mapM (populateStep fs dest src)

/-! ## Basic lemmas about the escape primitives -/

theorem escape_cons (c : Char) (l : List Char) :
    escape (c :: l) = if c ∈ ESCAPABLE then '\\' :: c :: escape l else c :: escape l := by
  cases l <;> simp [escape]

theorem unescape_eq_go (l : List Char) : unescape l = unescapeGo l := by
  match l with
  | [] => rfl
  | [c] => rfl
  | a :: b :: rest => simp [unescape, unescapeGo]

theorem unescapeGo_cons_of_ne {c : Char} (hc : c ≠ '\\') (l : List Char) :
    unescapeGo (c :: l) = c :: unescapeGo l := by
  cases l with
  | nil => rfl
  | cons b rest => simp [unescapeGo, hc]

theorem backslash_mem_escapable : '\\' ∈ ESCAPABLE := by decide

/-- Round trip on escape-marker-free strings: `unescape (escape s) = s`. -/
theorem unescape_escape_of_no_backslash {s : List Char} (h : '\\' ∉ s) :
    unescape (escape s) = s := by
  rw [unescape_eq_go]
  induction s with
  | nil => rfl
  | cons c rest ih =>
    have hc : c ≠ '\\' := fun he => h (he ▸ List.mem_cons_self c rest)
    have hrest : '\\' ∉ rest := fun hm => h (List.mem_cons_of_mem c hm)
    rw [escape_cons]
    by_cases hesc : c ∈ ESCAPABLE
    · rw [if_pos hesc]
      have : unescapeGo ('\\' :: c :: escape rest) = unescapeGo (c :: escape rest) := by
        cases hrest' : escape rest <;> simp [unescapeGo, hesc]
      rw [this, unescapeGo_cons_of_ne hc, ih hrest]
    · rw [if_neg hesc, unescapeGo_cons_of_ne hc, ih hrest]

/-! ## Lemmas about `scanFirst` and `pyFind` -/

theorem scanFirst_some {p : Nat → Bool} : ∀ {f s k : Nat}, scanFirst p s f = some k →
    p k = true ∧ s ≤ k ∧ ∀ m, s ≤ m → m < k → p m = false := by
  intro f
  induction f with
  | zero => intro s k h; simp [scanFirst] at h
  | succ f ih =>
    intro s k h
    rw [scanFirst] at h
    by_cases hp : p s
    · rw [if_pos hp] at h
      obtain rfl : s = k := by simpa using h
      exact ⟨hp, le_refl _, fun m h1 h2 => absurd (lt_of_le_of_lt h1 h2) (lt_irrefl _)⟩
    · rw [if_neg hp] at h
      obtain ⟨hk, hsk, hmin⟩ := ih h
      refine ⟨hk, le_trans (Nat.le_succ s) hsk, fun m h1 h2 => ?_⟩
      rcases Nat.eq_or_lt_of_le h1 with rfl | hlt
      · exact Bool.eq_false_iff.mpr hp
      · exact hmin m hlt h2

theorem scanFirst_none {p : Nat → Bool} : ∀ {f s : Nat}, scanFirst p s f = none →
    ∀ m, s ≤ m → m < s + f → p m = false := by
  intro f
  induction f with
  | zero => intro s _ m h1 h2; omega
  | succ f ih =>
    intro s h m h1 h2
    rw [scanFirst] at h
    by_cases hp : p s
    · rw [if_pos hp] at h; exact absurd h (by simp)
    · rw [if_neg hp] at h
      rcases Nat.eq_or_lt_of_le h1 with rfl | hlt
      · exact Bool.eq_false_iff.mpr hp
      · exact ih h m hlt (by omega)

theorem scanFirst_found {p : Nat → Bool} : ∀ {f s k : Nat}, p k = true → s ≤ k →
    k < s + f → (∀ m, s ≤ m → m < k → p m = false) → scanFirst p s f = some k := by
  intro f
  induction f with
  | zero => intro s k _ _ h; omega
  | succ f ih =>
    intro s k hk hsk hf hmin
    rw [scanFirst]
    rcases Nat.eq_or_lt_of_le hsk with rfl | hlt
    · rw [if_pos hk]
    · have hps : p s = false := hmin s (le_refl _) hlt
      rw [if_neg (by simp [hps])]
      exact ih hk hlt (by omega) (fun m h1 h2 => hmin m (le_trans (Nat.le_succ s) h1) h2)

theorem isPrefixOf_ex {a : List Char} : ∀ {b : List Char}, a.isPrefixOf b = true →
    ∃ t, b = a ++ t := by
  induction a with
  | nil => intro b _; exact ⟨b, rfl⟩
  | cons c a ih =>
    intro b h
    cases b with
    | nil => simp [List.isPrefixOf] at h
    | cons d b =>
      rw [List.isPrefixOf, Bool.and_eq_true] at h
      obtain rfl : c = d := by simpa using h.1
      obtain ⟨t, rfl⟩ := ih h.2
      exact ⟨t, rfl⟩

theorem ex_isPrefixOf {a t : List Char} : a.isPrefixOf (a ++ t) = true := by
  induction a with
  | nil => simp [List.isPrefixOf]
  | cons c a ih => simp [List.isPrefixOf, ih]

theorem pyFind_cases (sub hay : List Char) (s t : Nat) :
    pyFind sub hay s t = -1 ∨
    ∃ k : Nat, pyFind sub hay s t = (k : Int) ∧ s ≤ k ∧
      k + sub.length ≤ Nat.min t hay.length ∧ sub.isPrefixOf (hay.drop k) = true := by
  rw [pyFind]
  cases hscan : scanFirst (fun k =>
      decide (k + sub.length ≤ Nat.min t hay.length) && sub.isPrefixOf (hay.drop k))
      s (Nat.min t hay.length + 1 - s) with
  | none => left; rfl
  | some k =>
    right
    obtain ⟨hk, hsk, _⟩ := scanFirst_some hscan
    rw [Bool.and_eq_true, decide_eq_true_iff] at hk
    exact ⟨k, rfl, hsk, hk.1, hk.2⟩

theorem pyFind_least {sub hay : List Char} {s t k : Nat}
    (h : pyFind sub hay s t = (k : Int)) :
    ∀ m, s ≤ m → m < k → ¬ (m + sub.length ≤ Nat.min t hay.length ∧
      sub.isPrefixOf (hay.drop m) = true) := by
  rw [pyFind] at h
  cases hscan : scanFirst (fun k =>
      decide (k + sub.length ≤ Nat.min t hay.length) && sub.isPrefixOf (hay.drop k))
      s (Nat.min t hay.length + 1 - s) with
  | none => rw [hscan] at h; exact absurd h (by simp)
  | some k' =>
    rw [hscan] at h
    obtain rfl : k' = k := by simpa using h
    obtain ⟨_, _, hmin⟩ := scanFirst_some hscan
    intro m h1 h2 hc
    have htrue : (decide (m + sub.length ≤ Nat.min t hay.length) &&
        sub.isPrefixOf (hay.drop m)) = true := by
      simp [hc.1, hc.2]
    rw [hmin m h1 h2] at htrue
    exact absurd htrue (by simp)

theorem pyFind_eq_neg_of_forall {sub hay : List Char} {s t : Nat}
    (h : ∀ k, s ≤ k → k + sub.length ≤ Nat.min t hay.length →
      sub.isPrefixOf (hay.drop k) = false) :
    pyFind sub hay s t = -1 := by
  rw [pyFind]
  cases hscan : scanFirst (fun k =>
      decide (k + sub.length ≤ Nat.min t hay.length) && sub.isPrefixOf (hay.drop k))
      s (Nat.min t hay.length + 1 - s) with
  | none => rfl
  | some k =>
    obtain ⟨hk, hsk, _⟩ := scanFirst_some hscan
    rw [Bool.and_eq_true, decide_eq_true_iff] at hk
    rw [h k hsk hk.1] at hk
    exact absurd hk.2 (by simp)

theorem pyFind_found {sub hay : List Char} {s t k : Nat}
    (hfit : k + sub.length ≤ Nat.min t hay.length)
    (hpre : sub.isPrefixOf (hay.drop k) = true) (hsk : s ≤ k)
    (hmin : ∀ m, s ≤ m → m < k →
      ¬ (m + sub.length ≤ Nat.min t hay.length ∧ sub.isPrefixOf (hay.drop m) = true)) :
    pyFind sub hay s t = (k : Int) := by
  rw [pyFind]
  rw [scanFirst_found (k := k) (by simp [hfit, hpre]) hsk (by omega)
    (fun m h1 h2 => by
      by_cases hfitm : m + sub.length ≤ Nat.min t hay.length
      · have hnp : ¬ sub.isPrefixOf (hay.drop m) = true :=
          fun hp => hmin m h1 h2 ⟨hfitm, hp⟩
        have : sub.isPrefixOf (hay.drop m) = false := Bool.eq_false_iff.mpr hnp
        simp [this]
      · simp [hfitm])]

/-- The re-find of `find_unescaped`'s loop, `haystack.find(needle, index + len(needle),
start)`, searches an empty range (its stop bound `start` never exceeds `index`)
and therefore yields `-1`. -/
theorem pyFind_empty_range {sub hay : List Char} {a t : Nat} (h : Nat.min t hay.length < a)
    (hne : sub ≠ []) : pyFind sub hay a t = -1 := by
  refine pyFind_eq_neg_of_forall (fun k hk hfit => ?_)
  exfalso
  have : 1 ≤ sub.length := List.length_pos.mpr hne
  omega

/-! ## Split/join round trip: invariants of `suLoop` -/

/-- A genuine occurrence of `needle` at position `k` of `hay`. -/
def Occ (needle hay : List Char) (k : Nat) : Prop :=
  needle.isPrefixOf (hay.drop k) = true

/-- `GappedE needle hay s l e`: `l` lists genuine occurrence positions, the
first at or after `s`, each further one at least a needle length past the
previous; `e` is the position just after the last listed occurrence
(`s` when `l` is empty). -/
def GappedE (needle hay : List Char) : Nat → List Int → Nat → Prop
  | s, [], e => e = s
  | s, i :: rest, e =>
    ∃ k : Nat, i = (k : Int) ∧ s ≤ k ∧ Occ needle hay k ∧
      GappedE needle hay (k + needle.length) rest e

theorem fuLoop_good {needle en hay : List Char} {start offset : Nat} :
    ∀ (fuel : Nat) (index : Int),
      (index = -1 ∨ ∃ k : Nat, index = (k : Int) ∧ start ≤ k ∧ Occ needle hay k) →
      (fuLoop needle en hay start offset index fuel = -1 ∨
        ∃ k : Nat, fuLoop needle en hay start offset index fuel = (k : Int) ∧
          start ≤ k ∧ Occ needle hay k) := by
  intro fuel
  induction fuel with
  | zero => intro index h; rw [fuLoop]; exact h
  | succ fuel ih =>
    intro index h
    rw [fuLoop]
    by_cases hpos : index > -1
    · rw [if_pos hpos]
      by_cases hbreak : pyFind en hay start hay.length = -1 ∨
          ¬ (index = pyFind en hay start hay.length + (offset : Int))
      · rw [if_pos hbreak]; exact h
      · rw [if_neg hbreak]
        apply ih
        rcases pyFind_cases needle hay (index.toNat + needle.length) start with hc |
          ⟨k, hk, hs, _, hp⟩
        · left; exact hc
        · right
          refine ⟨k, hk, ?_, hp⟩
          rcases h with rfl | ⟨k0, hk0, hsk0, _⟩
          · exact absurd hpos (by norm_num)
          · omega
    · rw [if_neg hpos]; exact h

theorem fu_good {needle hay : List Char} (hne : needle ≠ []) (start : Nat) :
    find_unescaped needle hay start = -1 ∨
      ∃ k : Nat, find_unescaped needle hay start = (k : Int) ∧ start ≤ k ∧
        Occ needle hay k := by
  obtain ⟨c, tl, rfl⟩ := List.exists_cons_of_ne_nil hne
  rw [find_unescaped]
  have hgood : pyFind (c :: tl) hay start hay.length = -1 ∨
      ∃ k : Nat, pyFind (c :: tl) hay start hay.length = (k : Int) ∧ start ≤ k ∧
        Occ (c :: tl) hay k := by
    rcases pyFind_cases (c :: tl) hay start hay.length with h | ⟨k, hk, hs, _, hp⟩
    · left; exact h
    · right; exact ⟨k, hk, hs, hp⟩
  by_cases hoff : (escape [c]).length - 1 = 0
  · rw [if_pos hoff]; exact hgood
  · rw [if_neg hoff]; exact fuLoop_good _ _ hgood

theorem gappedE_getLast {needle hay : List Char} :
    ∀ (l : List Int) (s e : Nat), GappedE needle hay s l e → l ≠ [] →
      ∃ k : Nat, l.getLast? = some ((k : Int)) ∧ e = k + needle.length := by
  intro l
  induction l with
  | nil => intro s e _ h; exact absurd rfl h
  | cons i rest ih =>
    intro s e hg _
    obtain ⟨k, rfl, _, _, hrest⟩ := hg
    by_cases hr : rest = []
    · subst hr
      obtain rfl : e = k + needle.length := hrest
      exact ⟨k, rfl, rfl⟩
    · obtain ⟨r, tl, rfl⟩ := List.exists_cons_of_ne_nil hr
      obtain ⟨k', hlast, he⟩ := ih _ _ hrest (by simp)
      exact ⟨k', by rw [List.getLast?_cons_cons]; exact hlast, he⟩

theorem gappedE_append {needle hay : List Char} :
    ∀ (l : List Int) (s e k : Nat), GappedE needle hay s l e → e ≤ k →
      Occ needle hay k →
      GappedE needle hay s (l ++ [(k : Int)]) (k + needle.length) := by
  intro l
  induction l with
  | nil =>
    intro s e k hg hek hocc
    obtain rfl : e = s := hg
    exact ⟨k, rfl, hek, hocc, rfl⟩
  | cons i rest ih =>
    intro s e k hg hek hocc
    obtain ⟨k0, rfl, hs, ho, hrest⟩ := hg
    exact ⟨k0, rfl, hs, ho, ih (k0 + needle.length) e k hrest hek hocc⟩

/-- Invariant of the index-collection loop: the accumulated list is a
gapped occurrence list, possibly terminated by a single trailing `-1`. -/
def SInv (needle hay : List Char) (l : List Int) : Prop :=
  ∃ (l' : List Int) (e : Nat), (l = l' ∨ l = l' ++ [-1]) ∧ GappedE needle hay 0 l' e

theorem suLoop_ne {needle hay : List Char} {nsplits : Int} :
    ∀ (fuel : Nat) (l : List Int), l ≠ [] → suLoop needle hay nsplits l fuel ≠ [] := by
  intro fuel
  induction fuel with
  | zero => intro l h; rw [suLoop]; exact h
  | succ fuel ih =>
    intro l h
    rw [suLoop]
    split
    · exact ih _ (by simp)
    · exact h

theorem suLoop_inv {needle hay : List Char} {nsplits : Int} (hne : needle ≠ []) :
    ∀ (fuel : Nat) (l : List Int), SInv needle hay l →
      SInv needle hay (suLoop needle hay nsplits l fuel) := by
  intro fuel
  induction fuel with
  | zero => intro l h; rw [suLoop]; exact h
  | succ fuel ih =>
    intro l h
    rw [suLoop]
    by_cases hcond : ¬ ((l.length : Int) = nsplits) ∧ ¬ (l.getLastD (-1) = -1)
    · rw [if_pos hcond]
      apply ih
      obtain ⟨l', e, hshape, hg⟩ := h
      rcases hshape with h1 | h1
      · rw [← h1] at hg
        by_cases hl : l = []
        · subst hl
          exact absurd rfl hcond.2
        · obtain ⟨klast, hlast, he⟩ := gappedE_getLast l 0 e hg hl
          have hgd : l.getLastD (-1) = (klast : Int) := by
            rw [List.getLastD_eq_getLast?, hlast]; rfl
          have hstart : ((l.getLastD (-1)) + (needle.length : Int)).toNat = e := by
            rw [hgd]; omega
          rw [hstart]
          rcases fu_good hne e with hfu | ⟨k, hfu, hek, hocc⟩
          · exact ⟨l, e, Or.inr (by rw [hfu]), hg⟩
          · exact ⟨l ++ [(k : Int)], k + needle.length, Or.inl (by rw [hfu]),
              gappedE_append l 0 e k hg hek hocc⟩
      · exfalso
        apply hcond.2
        rw [h1, List.getLastD_eq_getLast?, List.getLast?_concat]
        rfl
    · rw [if_neg hcond]; exact h

theorem sinv_pop {needle hay : List Char} {l : List Int} (h : SInv needle hay l) :
    ∃ (l' : List Int) (e : Nat),
      (if l.getLast? = some (-1) then l.dropLast else l) = l' ∧
        GappedE needle hay 0 l' e := by
  obtain ⟨l', e, hshape, hg⟩ := h
  rcases hshape with h1 | h1
  · rw [← h1] at hg
    by_cases hl : l = []
    · subst hl
      exact ⟨[], e, by simp, hg⟩
    · obtain ⟨k, hlast, _⟩ := gappedE_getLast l 0 e hg hl
      have hne : ¬ (l.getLast? = some (-1)) := by
        rw [hlast]
        intro hc
        rw [Option.some_inj] at hc
        omega
      exact ⟨l, e, by rw [if_neg hne], hg⟩
  · refine ⟨l', e, ?_, hg⟩
    rw [h1, if_pos (by rw [List.getLast?_concat]), List.dropLast_concat]

theorem take_drop_append : ∀ (l : List Char) (s k : Nat), s ≤ k →
    (l.take k).drop s ++ l.drop k = l.drop s := by
  intro l
  induction l with
  | nil => intro s k _; simp
  | cons x xs ih =>
    intro s k hsk
    cases k with
    | zero =>
      obtain rfl : s = 0 := Nat.le_zero.mp hsk
      simp
    | succ k =>
      cases s with
      | zero => simp
      | succ s => simpa using ih s k (Nat.succ_le_succ_iff.mp hsk)

/-- Putting a genuine occurrence back between the field before it and the
rest of the haystack reconstructs the haystack. -/
theorem occ_slice {needle hay : List Char} {s k : Nat} (hsk : s ≤ k)
    (hocc : Occ needle hay k) :
    pySlice hay s k ++ (needle ++ hay.drop (k + needle.length)) = hay.drop s := by
  obtain ⟨t, ht⟩ := isPrefixOf_ex hocc
  have hdrop : hay.drop (k + needle.length) = t := by
    rw [← List.drop_drop, ht, List.drop_left]
  rw [pySlice, hdrop, ← ht, take_drop_append hay s k hsk]

theorem intercalate_single (sep a : List Char) : List.intercalate sep [a] = a := by
  simp [List.intercalate]

theorem intercalate_cons_ne (sep a : List Char) (l : List (List Char)) (h : l ≠ []) :
    List.intercalate sep (a :: l) = a ++ (sep ++ List.intercalate sep l) := by
  obtain ⟨b, t, rfl⟩ := List.exists_cons_of_ne_nil h
  simp [List.intercalate, List.intersperse_cons_cons]

theorem gappedE_recon {needle hay : List Char} :
    ∀ (l : List Int) (s e : Nat), GappedE needle hay s l e → l ≠ [] →
      List.intercalate needle (suFields needle hay l s ++
        [hay.drop ((l.getLastD (-1)) + (needle.length : Int)).toNat]) = hay.drop s := by
  intro l
  induction l with
  | nil => intro s e _ h; exact absurd rfl h
  | cons i rest ih =>
    intro s e hg _
    obtain ⟨k, rfl, hsk, hocc, hrest⟩ := hg
    have htn : ((k : Int)).toNat = k := by omega
    by_cases hr : rest = []
    · subst hr
      have hlast : (([((k : Int))].getLastD (-1)) + (needle.length : Int)).toNat =
          k + needle.length := by
        rw [List.getLastD_eq_getLast?]
        simp only [List.getLast?_singleton, Option.getD_some]
        omega
      rw [hlast, suFields, suFields, htn]
      simp only [List.cons_append, List.nil_append]
      rw [intercalate_cons_ne needle (pySlice hay s k)
        [hay.drop (k + needle.length)] (by simp), intercalate_single]
      exact occ_slice hsk hocc
    · obtain ⟨r, tl, rfl⟩ := List.exists_cons_of_ne_nil hr
      have hlast : ((((k : Int)) :: r :: tl).getLastD (-1)) =
          ((r :: tl).getLastD (-1)) := by
        rw [List.getLastD_eq_getLast?, List.getLastD_eq_getLast?,
          List.getLast?_cons_cons]
      rw [hlast, suFields, htn]
      simp only [List.cons_append]
      rw [intercalate_cons_ne needle (pySlice hay s k)
        (suFields needle hay (r :: tl) (k + needle.length) ++
          [hay.drop (((r :: tl).getLastD (-1)) + (needle.length : Int)).toNat])
        (by simp)]
      rw [ih (k + needle.length) e hrest (by simp)]
      exact occ_slice hsk hocc

/-! ## C8: the preprocessor's macro table is last-wins -/

theorem pass1_snd_append : ∀ (pre : List (List Char)) (line : List Char) (m : Macros),
    (pass1 (pre ++ [line]) m).2 = (pass1 pre m).2 ++ extractMacroDef (uncomment line) := by
  intro pre
  induction pre with
  | nil =>
    intro line m
    by_cases hmd : extractMacroDef (uncomment line) = []
    · simp [pass1, hmd]
    · simp [pass1, hmd]
  | cons p pre ih =>
    intro line m
    by_cases hmd : extractMacroDef (uncomment p) = []
    · simp only [List.cons_append, pass1, hmd, if_pos]
      exact ih line m
    · simp only [List.cons_append, pass1, hmd, if_neg, reduceIte]
      exact ih line (m ++ extractMacroDef (uncomment p))

theorem lookup_concat (m : Macros) (n d : List Char) :
    lookupMacro (m ++ [(n, d)]) n = some d := by
  rw [lookupMacro, List.foldl_append]
  simp

/-! ## C10: joining an unlimited split reconstructs the haystack -/

/-- Claim C10: for every non-empty needle, the fields returned by the
unlimited `split_unescaped` joined back with the needle reproduce the
haystack exactly. -/
theorem mkt_c10_split_join (needle hay : List Char) (hne : needle ≠ []) :
    ∃ parts, split_unescaped needle hay (-1) = .ok parts ∧
      List.intercalate needle parts = hay := by
  have hInv0 : SInv needle hay [find_unescaped needle hay 0] := by
    rcases fu_good hne 0 with hfu | ⟨k, hfu, _, hocc⟩
    · exact ⟨[], 0, Or.inr (by rw [hfu]; rfl), rfl⟩
    · exact ⟨[(k : Int)], k + needle.length, Or.inl (by rw [hfu]),
        ⟨k, rfl, Nat.zero_le k, hocc, rfl⟩⟩
  have hInv : SInv needle hay
      (suLoop needle hay (-1) [find_unescaped needle hay 0] (hay.length + 2)) :=
    suLoop_inv hne _ _ hInv0
  obtain ⟨l', e, hpop, hg⟩ := sinv_pop hInv
  simp only [split_unescaped]
  rw [hpop]
  rw [if_neg (by intro hc; exact absurd hc.1 (by norm_num))]
  by_cases hl : l' = []
  · subst hl
    rw [if_pos rfl]
    exact ⟨[hay], rfl, intercalate_single needle hay⟩
  · rw [if_neg hl]
    refine ⟨_, rfl, ?_⟩
    have hr := gappedE_recon l' 0 e hg hl
    rw [List.drop_zero] at hr
    exact hr

/-! ## C4: the claimed semantics of `find_unescaped` versus its actual one -/

/-- Written from the claim's words (C4), not from the source: the length
of the maximal run of `\` characters ending just before position `i`. -/
def backslashRun (hay : List Char) : Nat → Nat
  | 0 => 0
  | i + 1 => if hay.getD i ' ' = '\\' then backslashRun hay i + 1 else 0

/-- Written from the claim's words (C4), not from the source: the first
occurrence of the needle at or after `start` whose preceding backslash
run has even length (an odd run means the occurrence is escaped), or
`-1` when no such occurrence exists. -/
def findUnescapedClaim (needle hay : List Char) (start : Nat) : Int :=
  match scanFirst (fun k => needle.isPrefixOf (hay.drop k) &&
      decide (backslashRun hay k % 2 = 0)) start (hay.length + 1 - start) with
  | some k => (k : Int)
  | none => -1

/-- What `find_unescaped` actually computes for a single-character needle
(the only needle shape the program uses): the first plain occurrence, and
— only when the needle character is `ESCAPABLE` — `-1` whenever the
character directly before that first occurrence is a backslash, escaped
or not; later occurrences are never examined. -/
def findUnescapedAmended (c : Char) (hay : List Char) (start : Nat) : Int :=
  if pyFind [c] hay start hay.length = -1 then -1
  else if c ∈ ESCAPABLE ∧ (start : Int) < pyFind [c] hay start hay.length ∧
      hay.getD ((pyFind [c] hay start hay.length) - 1).toNat ' ' = '\\' then -1
  else pyFind [c] hay start hay.length

theorem find_unescaped_single (c : Char) (hay : List Char) (start : Nat) :
    find_unescaped [c] hay start = findUnescapedAmended c hay start := by
  by_cases hesc : c ∈ ESCAPABLE
  case neg =>
    have hoff : (escape [c]).length - 1 = 0 := by
      rw [escape_cons, if_neg hesc]; rfl
    rw [find_unescaped, if_pos hoff, findUnescapedAmended]
    by_cases hi : pyFind [c] hay start hay.length = -1
    · rw [if_pos hi, hi]
    · rw [if_neg hi, if_neg (fun hc => hesc hc.1)]
  case pos =>
    have hoff : (escape [c]).length - 1 = 1 := by
      rw [escape_cons, if_pos hesc]; rfl
    have hen : escape [c] = ['\\', c] := by
      rw [escape_cons, if_pos hesc]; rfl
    rw [find_unescaped, if_neg (by rw [hoff]; norm_num), hoff, hen, findUnescapedAmended]
    rcases pyFind_cases [c] hay start hay.length with hi | ⟨k, hi, hsk, hfit, hpre⟩
    · rw [hi, if_pos rfl, fuLoop]
      norm_num
    · have hk1 : k + 1 ≤ hay.length := by simpa using hfit
      rw [hi]
      by_cases hcond : (start : Int) < (k : Int) ∧
          hay.getD (((k : Int)) - 1).toNat ' ' = '\\'
      case pos =>
        rw [if_neg (by omega), if_pos ⟨hesc, hcond.1, hcond.2⟩]
        have hk0 : 1 ≤ k := by omega
        have hkm1 : ((k : Int) - 1).toNat = k - 1 := by omega
        have hgd : hay.getD (k - 1) ' ' = '\\' := by rw [← hkm1]; exact hcond.2
        have hklt : k - 1 < hay.length := by omega
        obtain ⟨t, ht⟩ := isPrefixOf_ex hpre
        have hdrop2 : hay.drop (k - 1) = ['\\', c] ++ t := by
          have hstep := List.drop_eq_getElem_cons hklt
          have hkk : k - 1 + 1 = k := by omega
          rw [hkk] at hstep
          have hgetk : hay[k - 1] = '\\' := by
            rw [← List.getD_eq_getElem hay ' ' hklt]; exact hgd
          rw [hstep, hgetk, ht]
          rfl
        have hpre2 : (['\\', c] : List Char).isPrefixOf (hay.drop (k - 1)) = true := by
          rw [hdrop2]; exact ex_isPrefixOf
        have hfit2 : (k - 1) + (['\\', c] : List Char).length ≤
            Nat.min hay.length hay.length := by simp; omega
        have hmin2 : ∀ m, start ≤ m → m < k - 1 →
            ¬ (m + (['\\', c] : List Char).length ≤ Nat.min hay.length hay.length ∧
              (['\\', c] : List Char).isPrefixOf (hay.drop m) = true) := by
          intro m h1 h2 hc
          obtain ⟨t2, ht2⟩ := isPrefixOf_ex hc.2
          have hdm : hay.drop (m + 1) = c :: t2 := by
            rw [← List.tail_drop, ht2]; rfl
          refine pyFind_least hi (m + 1) (by omega) (by omega) ⟨?_, ?_⟩
          · have := hc.1
            simp at this ⊢
            omega
          · rw [hdm]
            exact ex_isPrefixOf (a := [c]) (t := t2)
        have epos : pyFind ['\\', c] hay start hay.length = ((k - 1 : Nat) : Int) :=
          pyFind_found hfit2 hpre2 (by omega) hmin2
        rw [fuLoop, if_pos (by omega : (k : Int) > -1), epos,
          if_neg (by push_neg; exact ⟨by omega, by omega⟩)]
        have hlen1 : ([c] : List Char).length = 1 := rfl
        rw [hlen1]
        rw [pyFind_empty_range (by simp; omega) (by simp), fuLoop]
        norm_num
      case neg =>
        rw [if_neg (by omega : ¬ ((k : Int) = -1)),
          if_neg (fun hc => hcond ⟨hc.2.1, hc.2.2⟩)]
        rw [fuLoop, if_pos (by omega : (k : Int) > -1)]
        rcases pyFind_cases ['\\', c] hay start hay.length with he | ⟨p, hep, hsp, hfp, hpp⟩
        · rw [he, if_pos (Or.inl rfl)]
        · rw [hep]
          have hne2 : ¬ ((k : Int) = (p : Int) + ((1 : Nat) : Int)) := by
            intro heq
            apply hcond
            obtain ⟨t2, ht2⟩ := isPrefixOf_ex hpp
            have hplen : p < hay.length := by
              have := hfp; simp at this; omega
            have hgp : hay.getD p ' ' = '\\' := by
              rw [List.getD_eq_getElem hay ' ' hplen]
              have hstep := List.drop_eq_getElem_cons hplen
              rw [ht2] at hstep
              simp only [List.cons_append, List.nil_append, List.cons.injEq] at hstep
              exact hstep.1.symm
            refine ⟨by omega, ?_⟩
            have hkp : ((k : Int) - 1).toNat = p := by omega
            rw [hkp]
            exact hgp
          rw [if_pos (Or.inr hne2)]

/-! ## Claim theorems -/

/-- Claim C1 (code bug): `Template.execute_options` is documented
(`# no repeats`) and specified to emit each option at most once per call,
but `selected.union(set(op.names))` discards its result, so `selected`
never grows: on the parsed template `b, build:\n    do thing`, requesting
`["b", "b"]` emits the option's script body twice. -/
theorem mkt_c1_dedup_code_bug :
    parse "b, build:\n    do thing".toList =
      .ok ⟨[⟨["b".toList, " build".toList], "do thing".toList⟩], []⟩ ∧
    execute_options_script [⟨["b".toList, " build".toList], "do thing".toList⟩]
      ["b".toList, "b".toList] "/w".toList =
      [cdLine "/w".toList, "do thing".toList, "do thing".toList] := ⟨rfl, rfl⟩

/-- Claim C2 counterexample: the claimed round trip fails on the
two-character string `\#` (both characters drawn from RESERVED):
unescaping its escape yields `#`, because `unescape` deletes backslashes
cascadingly instead of skipping the character it just unescaped. -/
theorem mkt_c2_roundtrip_counterexample :
    unescape (escape ['\\', '#']) = ['#'] ∧ (['\\', '#'] : List Char) ≠ ['#'] :=
  ⟨rfl, by decide⟩

/-- Claim C2 as amended: `unescape (escape s) = s` for every string `s`
that does not itself contain the escape marker `\`. -/
theorem mkt_c2_roundtrip_amended (s : List Char) (h : '\\' ∉ s) :
    unescape (escape s) = s :=
  unescape_escape_of_no_backslash h

/-- Witness for the amended C2 round trip on a concrete string drawn from
the RESERVED alphabet plus printable text. -/
theorem mkt_c2_roundtrip_amended_witness :
    unescape (escape "(a) #x:=>,".toList) = "(a) #x:=>,".toList :=
  mkt_c2_roundtrip_amended "(a) #x:=>,".toList (by decide)

/-- Claim C3 counterexample: `split_unescaped('>', "a>b>c", 1)` does not
fail; it succeeds, splitting at the first occurrence only and leaving the
second occurrence inside the final field. -/
theorem mkt_c3_strictness_counterexample :
    split_unescaped ">".toList "a>b>c".toList 1 = .ok ["a".toList, "b>c".toList] := rfl

/-- Claim C3 as amended: with non-negative `maxSplits`, the operation
fails only when fewer unescaped occurrences are found than requested
(`"ab"` with one requested); when at least as many exist it splits at the
first `n` of them, keeping the remainder — extra occurrences included —
in the final field. -/
theorem mkt_c3_strictness_amended :
    split_unescaped ">".toList "a>b>c".toList 1 = .ok ["a".toList, "b>c".toList] ∧
    split_unescaped ">".toList "a>b".toList 1 = .ok ["a".toList, "b".toList] ∧
    split_unescaped ">".toList "ab".toList 1 =
      .error (.valueError "not enough splits") := ⟨rfl, rfl, rfl⟩

/-- Claim C4 counterexample: in `\>a>b` the odd-run semantics of the
claim designates index 3 (the `>` at index 1 is escaped, the one at
index 3 is not), but `find_unescaped` returns `-1`: after seeing that the
first occurrence is backslash-preceded it never scans further. -/
theorem mkt_c4_counterexample :
    findUnescapedClaim ">".toList "\\>a>b".toList 0 = 3 ∧
    find_unescaped ">".toList "\\>a>b".toList 0 = -1 := ⟨by decide, by decide⟩

/-- Claim C4 as amended: for every single-character needle (the only
shape the program uses), `find_unescaped` returns the first plain
occurrence at or after `start`, except that for an `ESCAPABLE` needle
character it returns `-1` whenever the character directly before that
first occurrence is a backslash — whether or not that backslash is itself
escaped — and it never examines any later occurrence. -/
theorem mkt_c4_amended (c : Char) (hay : List Char) (start : Nat) :
    find_unescaped [c] hay start = findUnescapedAmended c hay start :=
  find_unescaped_single c hay start

/-- Claim C5 (code bug): the module docstring promises script lines are
executed "including leading whitespace", but `parse` pipes every script
line through `normalize_component`, whose `strip_unescaped` removes the
leading indentation (`"    do thing"` is stored as `"do thing"`); the
option names are moreover kept unstripped (`" build"`), so selecting
`"build"` from the §8 example emits nothing at all. -/
theorem mkt_c5_scriptws_code_bug :
    parse "b, build:\n    do thing".toList =
      .ok ⟨[⟨["b".toList, " build".toList], "do thing".toList⟩], []⟩ ∧
    execute_options_script [⟨["b".toList, " build".toList], "do thing".toList⟩]
      ["build".toList] "/w".toList = [cdLine "/w".toList] ∧
    ("do thing".toList : List Char) ≠ "    do thing".toList := ⟨rfl, rfl, by decide⟩

/-- Claim C6 counterexample: the line `/abs/src>/abs/other` (absolute
destination differing from the source) parses without any error into an
ordinary path record, and `populate` silently copies it on a filesystem
where the source is a file; no `SyntaxError` is raised anywhere. -/
theorem mkt_c6_counterexample :
    parse "/abs/src>/abs/other".toList =
      .ok ⟨[], [⟨"/abs/src".toList, "/abs/other".toList⟩]⟩ ∧
    populate ⟨fun _ => false, fun p => p = "/abs/src".toList, fun _ => false,
        fun _ _ => false⟩
      "/out".toList "/tpl".toList [⟨"/abs/src".toList, "/abs/other".toList⟩] =
      .ok [.copy "/abs/src".toList "/abs/other".toList] := ⟨rfl, rfl⟩

/-- Claim C6 as amended: no absolute-destination policy exists in the
code; the pair parses cleanly and a single populate step copies the file
(here on a filesystem where the destination already exists as a file with
a different content hash). -/
theorem mkt_c6_amended :
    parse "/abs/src>/abs/other".toList =
      .ok ⟨[], [⟨"/abs/src".toList, "/abs/other".toList⟩]⟩ ∧
    populateStep ⟨fun _ => false, fun _ => true, fun _ => true, fun _ _ => false⟩
      "/out".toList "/tpl".toList ⟨"/abs/src".toList, "/abs/other".toList⟩ =
      .ok (.copy "/abs/src".toList "/abs/other".toList) := ⟨rfl, rfl⟩

/-- Claim C7 counterexample: in `\(x) (a)` with macro `a` defined, the
span `(a)` is unescaped and its trimmed contents name a defined macro,
yet nothing is replaced: the scan for `(` aborts at the first
escape-preceded `(` and never reaches the later span. -/
theorem mkt_c7_counterexample :
    expand_macros "\\(x) (a)".toList [("a".toList, "1".toList)] = "\\(x) (a)".toList ∧
    lookupMacro [("a".toList, "1".toList)] (pyStrip "a".toList) = some "1".toList :=
  ⟨rfl, rfl⟩

/-- Claim C7 as amended: a matching unescaped parenthesized span is
replaced by the definition verbatim, non-matching spans and an unmatched
`(` are left untouched, and substituted text is not re-scanned — but the
left-to-right scan stops at the first `(` that is directly preceded by a
backslash, leaving everything after it unexpanded. -/
theorem mkt_c7_amended :
    expand_macros "(a)".toList [("a".toList, "1".toList)] = "1".toList ∧
    expand_macros "(x)".toList [("a".toList, "1".toList)] = "(x)".toList ∧
    expand_macros "(a".toList [("a".toList, "1".toList)] = "(a".toList ∧
    expand_macros "(a)".toList [("a".toList, "(b)".toList), ("b".toList, "2".toList)] =
      "(b)".toList ∧
    expand_macros "\\(x) (a)".toList [("a".toList, "1".toList)] = "\\(x) (a)".toList :=
  ⟨rfl, rfl, rfl, rfl, rfl⟩

/-- Claim C8: the macro table is last-wins — a later definition of a name
overrides every earlier one regardless of what preceded it — and
preprocessing `a=1`, `a=2` then expanding `(a)` yields `2`. -/
theorem mkt_c8_lastwins :
    (∀ (pre : List (List Char)) (line n d : List Char) (m0 : Macros),
      extractMacroDef (uncomment line) = [(n, d)] →
      lookupMacro (pass1 (pre ++ [line]) m0).2 n = some d) ∧
    preprocess ["a=1".toList, "a=2".toList, "(a)".toList] = [[], [], "2".toList] := by
  refine ⟨?_, rfl⟩
  intro pre line n d m0 hx
  rw [pass1_snd_append, hx]
  exact lookup_concat _ _ _

/-- Witness for C8 at the concrete duplicate-definition input. -/
theorem mkt_c8_lastwins_witness :
    lookupMacro (pass1 (["a=1".toList] ++ ["a=2".toList]) []).2 "a".toList =
      some "2".toList :=
  mkt_c8_lastwins.1 ["a=1".toList] "a=2".toList "a".toList "2".toList [] rfl

/-- Claim C9 (code bug): a line that is a single whitespace character is
not skipped — `strip_unescaped` returns any string of length below two
unchanged, so the line survives as non-blank and becomes the path record
`{" ", " "}` — whereas a two-space line is stripped and skipped. -/
theorem mkt_c9_blank_code_bug :
    parse " ".toList = .ok ⟨[], [⟨" ".toList, " ".toList⟩]⟩ ∧
    parse "  ".toList = .ok ⟨[], []⟩ := ⟨rfl, rfl⟩

/-- Witness for C10 on a concrete haystack containing both an escaped and
a plain occurrence of the needle. -/
theorem mkt_c10_split_join_witness :
    ∃ parts, split_unescaped ">".toList "a\\>b>c".toList (-1) = .ok parts ∧
      List.intercalate ">".toList parts = "a\\>b>c".toList :=
  mkt_c10_split_join ">".toList "a\\>b>c".toList (by decide)

end Mkt
